import Mathlib

/-!
Verification of the weibo hot-search pipeline (`src/weibo_hotsearch.py`).

The script fetches a ranked list of trending topics, merges it with the
day's stored record (deduplicating by topic word and keeping the maximum
popularity), persists the merged record in a date-keyed JSON document, and
renders a Markdown report.

Shallow embedding conventions:
* a topic entry (the dict `{"realpos": .., "word": .., "num": ..}`) is the
  structure `Item`; the Python code converts `num` with `int(...)` wherever
  it is compared or formatted, so `num` is embedded as `Int` throughout;
* Python dicts keyed by word are embedded as insertion-ordered association
  lists (`List Item`), with assignment-to-existing-key replacing the entry
  in place and assignment-to-fresh-key appending — exactly the order
  `dict.values()` later iterates;
* `sorted(..., key=..., reverse=True)` is a stable descending sort; it is
  embedded as `List.insertionSort` with the relation `b.num ≤ a.num`, which
  inserts an earlier element before later elements of equal key, matching
  CPython's documented stability;
* file state (the history document, the report directory) is passed
  explicitly: the history document is a date-keyed association list, the
  report directory a path-keyed association list.
-/

namespace Weibo

/-- One topic entry, the dict `{"realpos": .., "word": .., "num": ..}`. -/
structure Item where
  realpos : Int
  word : String
  num : Int
deriving DecidableEq, Repr

/-- Descending-popularity order used by `sorted(..., key=lambda x: int(x["num"]), reverse=True)`. -/
def numGE (a b : Item) : Prop := b.num ≤ a.num

instance : DecidableRel numGE := fun a b => inferInstanceAs (Decidable (b.num ≤ a.num))
instance : IsTotal Item numGE := ⟨fun a b => le_total b.num a.num⟩
instance : IsTrans Item numGE := ⟨fun _ _ _ h1 h2 => le_trans h2 h1⟩

/-- The words of the entries of an association list, in order. -/
def words (m : List Item) : List String := m.map (·.word)

/-- `merged.get(word)`: first entry with the given word. -/
def wlookup (m : List Item) (w : String) : Option Item := m.find? (fun it => it.word == w)

/-- `merged[x.word] = x` on an insertion-ordered dict: replace the entry with
that word in place, else append. -/
def dictInsert : List Item → Item → List Item
  | [], x => [x]
  | y :: ys, x => if y.word == x.word then x :: ys else y :: dictInsert ys x

/-- `merged = {item["word"]: item for item in history}` (line 57). -/
def seed (history : List Item) : List Item := history.foldl dictInsert []

/-- The body of the `for item in new_data` loop (lines 58-61): upsert when the
word is absent or the new popularity strictly exceeds the stored one. -/
def step (m : List Item) (x : Item) : List Item :=
  match wlookup m x.word with
  | none => dictInsert m x
  | some e => if e.num < x.num then dictInsert m x else m

/-- `sorted(merged.values(), key=lambda x: int(x["num"]), reverse=True)` (lines 64-68). -/
def sortDesc (l : List Item) : List Item := l.insertionSort numGE

/-- `for idx, item in enumerate(sorted_data, 1): item["realpos"] = idx` (lines 71-72),
as the value of the resulting list. -/
def ranksFrom (k : Int) : List Item → List Item
  | [] => []
  | x :: xs => { x with realpos := k } :: ranksFrom (k + 1) xs

/-- `merge_data` (lines 47-74) as a function of the new items and of the
day's record read from `history.json` (the file read on lines 50-54 is passed
explicitly as `history`). Returns the value of `sorted_data`. -/
def merge_data (new_data history : List Item) : List Item :=
  ranksFrom 1 ((sortDesc (new_data.foldl step (seed history))).take 50)

/-! ### Store (`save_data`, and the history read in `merge_data`) -/

/-- The history document `history.json`: a date-keyed, insertion-ordered map. -/
abbrev HistoryDoc := List (String × List Item)

/-- `all_data[date_str] = data` on the date-keyed dict. -/
def docInsert : HistoryDoc → String → List Item → HistoryDoc
  | [], d, r => [(d, r)]
  | (k, v) :: rest, d, r => if k == d then (d, r) :: rest else (k, v) :: docInsert rest d r

/-- Lookup of a date key in the history document. -/
def docLookup (doc : HistoryDoc) (d : String) : Option (List Item) :=
  (doc.find? (fun p => p.1 == d)).map (·.2)

/-- `json.load(f).get(date_str, [])` (line 54); an absent file is the empty document. -/
def load_data (doc : HistoryDoc) (d : String) : List Item := (docLookup doc d).getD []

/-- `save_data` (lines 76-86): read the whole document, set the one date key,
rewrite the whole document. -/
def save_data (doc : HistoryDoc) (d : String) (data : List Item) : HistoryDoc :=
  docInsert doc d data

/-! ### Number formatting (`format_num`, lines 117-123) -/

/-- The tenths digit chosen by rendering `n / 10000` with `f"...:.1f"`:
`n / 1000` rounded to the nearest integer. The Python code divides in IEEE
double precision and formats with one decimal; this models the rendering with
exact arithmetic, rounding a half-way value (`n ≡ 500 [ZMOD 1000]`) to the even
tenth as the float formatter does on its exactly-representable inputs. -/
def roundTenths (n : Int) : Int :=
  if 2 * (n % 1000) < 1000 then n / 1000
  else if 1000 < 2 * (n % 1000) then n / 1000 + 1
  else if (n / 1000) % 2 = 0 then n / 1000 else n / 1000 + 1

/-- `f"{n/10000:.1f}"`: the rounded value `q / 10` printed with one decimal digit. -/
def fmtOneDecimal (n : Int) : String :=
  toString (roundTenths n / 10) ++ "." ++ toString (roundTenths n % 10)

/-- `format_num` (lines 117-123): values at or above 100000 are shown as
`n/10000` to one decimal followed by `"万"`, smaller values as `str(n)`. -/
def format_num (n : Int) : String :=
  if 100000 ≤ n then fmtOneDecimal n ++ "万" else toString n

/-! ### Markdown report (`generate_markdown`, lines 88-115) -/

/-- Upper-case hexadecimal digit, as `urllib.parse.quote` emits. -/
def hexDigit (n : Nat) : Char := if n < 10 then Char.ofNat (48 + n) else Char.ofNat (55 + n)

/-- Bytes `urllib.parse.quote` leaves unescaped: ASCII alphanumerics,
`_.-~` and the default safe character `/`. -/
def isQuoteSafe (b : Nat) : Bool :=
  (65 ≤ b && b ≤ 90) || (97 ≤ b && b ≤ 122) || (48 ≤ b && b ≤ 57) ||
    b == 45 || b == 46 || b == 95 || b == 126 || b == 47

/-- `urllib.parse.quote(word)` (line 103): percent-encode the UTF-8 bytes,
keeping the safe bytes verbatim. -/
def quote_url (s : String) : String :=
  String.join (s.toUTF8.toList.map fun b =>
    let n := b.toNat
    if isQuoteSafe n then String.singleton (Char.ofNat n)
    else "%" ++ String.singleton (hexDigit (n / 16)) ++ String.singleton (hexDigit (n % 16)))

/-- The timestamp pieces of `datetime.now()` that the reporter reads. -/
structure Stamp where
  year : Nat
  month : Nat
  day : Nat
  hour : Nat
  minute : Nat
deriving DecidableEq, Repr

/-- Zero-padded two-digit rendering (`%m`, `%d`, `%H`, `%M`). -/
def pad2 (n : Nat) : String := if n < 10 then "0" ++ toString n else toString n

/-- Zero-padded four-digit rendering (`%Y`). -/
def pad4 (n : Nat) : String :=
  if n < 10 then "000" ++ toString n
  else if n < 100 then "00" ++ toString n
  else if n < 1000 then "0" ++ toString n
  else toString n

/-- `datetime.now().strftime("%Y-%m-%d")` (line 133). -/
def dateStr (t : Stamp) : String := pad4 t.year ++ "-" ++ pad2 t.month ++ "-" ++ pad2 t.day

/-- `f"{now:%Y-%m-%d %H:%M}"` (line 96). -/
def stampStr (t : Stamp) : String :=
  dateStr t ++ " " ++ pad2 t.hour ++ ":" ++ pad2 t.minute

/-- `f"{now:%Y%m%d}"` (line 111). -/
def compactDate (t : Stamp) : String := pad4 t.year ++ pad2 t.month ++ pad2 t.day

/-- The part of a table row after the rank column: the linked word and the
formatted popularity (lines 104-108). -/
def rowBody (it : Item) : String :=
  "[" ++ it.word ++ "](https://s.weibo.com/weibo?q=" ++ quote_url it.word ++ ") | " ++
    format_num it.num ++ " |"

/-- One table row `f"| {idx} | [..](..) | .. |"` (lines 104-108). -/
def renderRow (idx : Nat) (it : Item) : String :=
  "| " ++ toString idx ++ " | " ++ rowBody it

/-- `for idx, item in enumerate(data, 1)` over the row renderer (lines 102-109). -/
def rowsFrom (k : Nat) : List Item → List String
  | [] => []
  | x :: xs => renderRow k x :: rowsFrom (k + 1) xs

/-- The table rows of the report, in order. -/
def markdownRows (data : List Item) : List String := rowsFrom 1 data

/-- The fixed header lines of the report (lines 94-100). -/
def headerLines (t : Stamp) : List String :=
  ["# 微博热搜榜\n",
   "**更新时间**: " ++ stampStr t ++ "\n",
   "---\n",
   "| 排名 | 热搜词 | 热度 |",
   "|------|--------|------|"]

/-- The full report text `"\n".join(content)` (line 113). -/
def generate_markdown (data : List Item) (t : Stamp) : String :=
  String.intercalate "\n" (headerLines t ++ markdownRows data)

/-- The report path `files/weibo/%Y/%m/微博热搜-%Y%m%d.md` (lines 91, 111). -/
def reportPath (t : Stamp) : String :=
  "files/weibo/" ++ pad4 t.year ++ "/" ++ pad2 t.month ++ "/微博热搜-" ++ compactDate t ++ ".md"

/-! ### Fetcher (`fetch_hot_search`, `process_raw_data`, lines 17-45) -/

/-- One element of `data["realtime"]`: the fields the script reads. A missing
`realpos` key is `none` (the ad filter tests `"realpos" in item`). -/
structure RawEntry where
  realpos : Option Int
  word : String
  num : Int
deriving DecidableEq, Repr

/-- The value of the `data` field; `realtime` is `none` when the key is absent. -/
structure RawPayload where
  realtime : Option (List RawEntry)
deriving DecidableEq, Repr

/-- The parsed response body: `ok` is `none` when absent (`raw_data.get("ok")`),
`data` is `none` when the key is absent (`"data" in raw_data`). -/
structure RawData where
  ok : Option Int
  data : Option RawPayload
deriving DecidableEq, Repr

/-- Projection of one realtime entry (lines 40-44), `none` when `realpos` is
absent (filtered out as an ad). -/
def projectEntry (e : RawEntry) : Option Item :=
  e.realpos.map fun rp => { realpos := rp, word := e.word, num := e.num }

/-- `process_raw_data` (lines 34-45). `raw_data["data"]["realtime"]` raises
`KeyError` when the `realtime` key is absent, embedded as `Except.error`. -/
def process_raw_data (raw : RawData) : Except String (List Item) :=
  match raw.ok, raw.data with
  | some 1, some p =>
    match p.realtime with
    | some entries => Except.ok (entries.filterMap projectEntry)
    | none => Except.error "KeyError: realtime"
  | _, _ => Except.ok []

/-- The outcome of the HTTP GET (lines 20-27): `Except.error` for any
network/timeout/JSON exception, otherwise the status code and parsed body. -/
abbrev FetchOutcome := Except Unit (Nat × RawData)

/-- `fetch_hot_search` (lines 17-32): on an exception (including one raised
inside `process_raw_data`, which is called within the `try`) or a status other
than 200, return `[]`. -/
def fetch_hot_search (resp : FetchOutcome) : List Item :=
  match resp with
  | Except.error _ => []
  | Except.ok (status, body) =>
    if status = 200 then
      match process_raw_data body with
      | Except.ok items => items
      | Except.error _ => []
    else []

/-- The file-system state `daily_task` touches: the history document and the
report directory (path-keyed file contents). -/
structure PipelineState where
  history : HistoryDoc
  reports : List (String × String)
deriving DecidableEq, Repr

/-- Writing a file: overwrite the entry at the path, or create it. -/
def fileWrite : List (String × String) → String → String → List (String × String)
  | [], p, c => [(p, c)]
  | (q, v) :: rest, p, c => if q == p then (p, c) :: rest else (q, v) :: fileWrite rest p c

/-- `daily_task` (lines 125-144) on the explicit file-system state: fetch, and
if the result is empty return unchanged; otherwise merge with the stored record
for today, save, and write the report. (`git_auto_commit` touches no modeled
state.) -/
def daily_task (resp : FetchOutcome) (t : Stamp) (st : PipelineState) : PipelineState :=
  let raw := fetch_hot_search resp
  if raw.isEmpty then st
  else
    let d := dateStr t
    let merged := merge_data raw (load_data st.history d)
    { history := save_data st.history d merged,
      reports := fileWrite st.reports (reportPath t) (generate_markdown merged t) }

/-! ### Object-identity model of the merge (for the in-place mutation)

`merge_data` ends with `for idx, item in enumerate(sorted_data, 1):
item["realpos"] = idx` (lines 71-72). The dicts in `sorted_data` are the very
objects held by the caller's `new_data` list, so the loop mutates the caller's
argument. To state this, the merge is replayed over items tagged with an
object identity (`Nat`); `newDataAfter` is the value of the `new_data` list
after `merge_data` returns. -/

/-- An item tagged with its object identity. -/
abbrev TItem := Nat × Item

/-- `dictInsert` on tagged items (keyed by the word of the payload). -/
def dictInsertT : List TItem → TItem → List TItem
  | [], x => [x]
  | y :: ys, x => if y.2.word == x.2.word then x :: ys else y :: dictInsertT ys x

/-- `seed` on tagged items. -/
def seedT (history : List TItem) : List TItem := history.foldl dictInsertT []

/-- `step` on tagged items. -/
def stepT (m : List TItem) (x : TItem) : List TItem :=
  match m.find? (fun it => it.2.word == x.2.word) with
  | none => dictInsertT m x
  | some e => if e.2.num < x.2.num then dictInsertT m x else m

/-- Descending-popularity order on tagged items. -/
def numGET (a b : TItem) : Prop := b.2.num ≤ a.2.num

instance : DecidableRel numGET := fun a b => inferInstanceAs (Decidable (b.2.num ≤ a.2.num))
instance : IsTotal TItem numGET := ⟨fun a b => le_total b.2.num a.2.num⟩
instance : IsTrans TItem numGET := ⟨fun _ _ _ h1 h2 => le_trans h2 h1⟩

/-- Stable descending sort on tagged items. -/
def sortDescT (l : List TItem) : List TItem := l.insertionSort numGET

/-- Rank reassignment on tagged items: the in-place `item["realpos"] = idx`. -/
def ranksFromT (k : Int) : List TItem → List TItem
  | [] => []
  | x :: xs => (x.1, { x.2 with realpos := k }) :: ranksFromT (k + 1) xs

/-- `merge_data` on tagged items. -/
def merge_dataT (new_data history : List TItem) : List TItem :=
  ranksFromT 1 ((sortDescT (new_data.foldl stepT (seedT history))).take 50)

/-- The value of the caller's `new_data` list after `merge_data` returns: an
object that was placed in the truncated, rank-reassigned output was mutated in
place; every other object is unchanged. -/
def newDataAfter (new_data history : List TItem) : List TItem :=
  new_data.map fun p =>
    match (merge_dataT new_data history).find? (fun q => q.1 == p.1) with
    | some q => q
    | none => p

/-! ### Proof infrastructure for the merge

`bumpW w o x` is the effect of processing one new item `x` on the dict entry
for the word `w` (the per-word view of `step`); `wordRun` iterates it.
`maxAt w base X` is the popularity the entry for `w` accumulates.  `merged0 X`
and `day0 X` name the intermediate dict and the output of `merge_data X []`. -/

def bumpW (w : String) (o : Option Item) (x : Item) : Option Item :=
  if x.word == w then
    match o with
    | none => some x
    | some e => if e.num < x.num then some x else some e
  else o

def wordRun (w : String) (o : Option Item) (X : List Item) : Option Item :=
  X.foldl (bumpW w) o

def maxAt (w : String) (base : Int) (X : List Item) : Int :=
  X.foldl (fun acc x => if x.word == w then max acc x.num else acc) base

/-- `[k, k+1, ..., k+n-1]` over `Int`. -/
def intsFrom (k : Int) : Nat → List Int
  | 0 => []
  | n + 1 => k :: intsFrom (k + 1) n

/-- The merged dict of `merge_data X []` before sorting. -/
def merged0 (X : List Item) : List Item := X.foldl step (seed [])

/-- The record `merge_data X []`. -/
def day0 (X : List Item) : List Item := ranksFrom 1 ((sortDesc (merged0 X)).take 50)

/-- The tail the second merge appends after the preserved `day0 X` block:
the new items whose words fell off the top-50 truncation, merged among
themselves. -/
def spill (X : List Item) : List Item :=
  (X.filter fun x => (wlookup (day0 X) x.word).isNone).foldl step []

/-- Concrete input for the truncation counterexample: a topic `L` known with
popularity 1, re-read at 2, plus fifty fresh topics at popularity 100. -/
def cexX : List Item := ⟨1, "L", 2⟩ :: (List.range 50).map fun i => ⟨0, "w" ++ toString i, 100⟩

/-- Concrete existing record for the truncation counterexample. -/
def cexR : List Item := [⟨1, "L", 1⟩]

/-! ## Lemmas: store -/

lemma docLookup_insert_self (doc : HistoryDoc) (d : String) (R : List Item) :
    docLookup (docInsert doc d R) d = some R := by
  induction doc with
  | nil => simp [docInsert, docLookup]
  | cons p rest ih =>
    obtain ⟨k, v⟩ := p
    by_cases hk : k = d
    · subst hk
      simp [docInsert, docLookup]
    · have hkb : (k == d) = false := beq_eq_false_iff_ne.mpr hk
      simp only [docInsert, hkb, Bool.false_eq_true, if_false]
      simpa [docLookup, List.find?_cons_of_neg, hkb] using ih

lemma docLookup_insert_other (doc : HistoryDoc) (d d' : String) (R : List Item)
    (h : d' ≠ d) :
    docLookup (docInsert doc d R) d' = docLookup doc d' := by
  have hdb : (d == d') = false := beq_eq_false_iff_ne.mpr (Ne.symm h)
  induction doc with
  | nil => simp [docInsert, docLookup, hdb]
  | cons p rest ih =>
    obtain ⟨k, v⟩ := p
    by_cases hk : k = d
    · subst hk
      simp [docInsert, docLookup, hdb]
    · have hkb : (k == d) = false := beq_eq_false_iff_ne.mpr hk
      by_cases hk' : k = d'
      · subst hk'
        simp [docInsert, hkb, docLookup]
      · have hkb' : (k == d') = false := beq_eq_false_iff_ne.mpr hk'
        simp only [docInsert, hkb, Bool.false_eq_true, if_false]
        simpa [docLookup, List.find?_cons_of_neg, hkb'] using ih

/-! ## Lemmas: fetcher -/

lemma process_raw_data_of_bad_shape (raw : RawData)
    (h : raw.ok ≠ some 1 ∨ raw.data = none) :
    process_raw_data raw = Except.ok [] := by
  unfold process_raw_data
  split
  · rename_i hok hdata
    rcases h with h | h
    · exact absurd hok h
    · rw [h] at hdata
      cases hdata
  · rfl

lemma process_raw_data_of_no_realtime (p : RawPayload) (h : p.realtime = none) :
    process_raw_data ⟨some 1, some p⟩ = Except.error "KeyError: realtime" := by
  obtain ⟨rt⟩ := p
  cases h
  rfl

lemma process_raw_data_of_realtime (entries : List RawEntry) :
    process_raw_data ⟨some 1, some ⟨some entries⟩⟩ =
      Except.ok ((entries.filter fun e => e.realpos.isSome).map
        fun e => { realpos := e.realpos.getD 0, word := e.word, num := e.num }) := by
  show Except.ok (entries.filterMap projectEntry) = _
  congr 1
  induction entries with
  | nil => rfl
  | cons e rest ih =>
    cases hrp : e.realpos with
    | none => simpa [projectEntry, hrp] using ih
    | some rp => simpa [projectEntry, hrp] using ih

/-- A fetch outcome the spec calls a failure: a network/parse exception, a
status other than 200, or a malformed body (no `ok == 1`, no `data` key, or a
`data` without the `realtime` key). -/
def fetchFailure (resp : FetchOutcome) : Prop :=
  resp = Except.error () ∨
  (∃ s b, resp = Except.ok (s, b) ∧ s ≠ 200) ∨
  (∃ b, resp = Except.ok (200, b) ∧
    (b.ok ≠ some 1 ∨ b.data = none ∨ ∃ p, b.data = some p ∧ p.realtime = none))

lemma fetch_hot_search_of_failure (resp : FetchOutcome) (h : fetchFailure resp) :
    fetch_hot_search resp = [] := by
  rcases h with h | ⟨s, b, rfl, hs⟩ | ⟨b, rfl, hb⟩
  · subst h; rfl
  · simp [fetch_hot_search, hs]
  · have hp : process_raw_data b = Except.ok [] ∨
      process_raw_data b = Except.error "KeyError: realtime" := by
      rcases hb with hok | hdat | ⟨p, hdat, hrt⟩
      · exact Or.inl (process_raw_data_of_bad_shape b (Or.inl hok))
      · exact Or.inl (process_raw_data_of_bad_shape b (Or.inr hdat))
      · obtain ⟨ok, dat⟩ := b
        cases hdat
        by_cases hok : ok = some 1
        · subst hok
          exact Or.inr (process_raw_data_of_no_realtime p hrt)
        · exact Or.inl (process_raw_data_of_bad_shape _ (Or.inl hok))
    rcases hp with hp | hp <;> simp [fetch_hot_search, hp]

/-! ## Lemmas: markdown rows -/

lemma renderRow_realpos (k : Nat) (x : Item) (v : Int) :
    renderRow k { x with realpos := v } = renderRow k x := rfl

lemma rowsFrom_map_realpos (f : Item → Int) (data : List Item) :
    ∀ k, rowsFrom k (data.map fun x => { x with realpos := f x }) = rowsFrom k data := by
  induction data with
  | nil => intro k; rfl
  | cons x xs ih =>
    intro k
    simp only [List.map_cons, rowsFrom, renderRow_realpos, ih]

lemma rowsFrom_getElem (data : List Item) :
    ∀ k i, (rowsFrom k data)[i]? = (data[i]?).map (renderRow (k + i)) := by
  induction data with
  | nil => intro k i; simp [rowsFrom]
  | cons x xs ih =>
    intro k i
    cases i with
    | zero => simp [rowsFrom]
    | succ j =>
      simp only [rowsFrom, List.getElem?_cons_succ, ih (k + 1) j]
      have hk : k + 1 + j = k + (j + 1) := by omega
      rw [hk]

/-! ## C-theorems for store, formatter, fetcher, reporter -/

/-- C4: `format_num` returns `str(n)` below 100000; at or above 100000 it
returns `n/10000` rendered with exactly one decimal digit (`q/10` with
`|n/10000 - q/10| ≤ 1/20`, stated integrally as `|n - 1000q| ≤ 500`) followed
by the unit suffix `万`; in particular `format_num 99999 = "99999"`,
`format_num 100000 = "10.0万"` and `format_num 250000 = "25.0万"`. -/
theorem format_num_spec :
    (∀ n : Int, n < 100000 → format_num n = toString n) ∧
    (∀ n : Int, 100000 ≤ n → ∃ q : Int,
      format_num n = toString (q / 10) ++ "." ++ toString (q % 10) ++ "万" ∧
      -500 ≤ n - 1000 * q ∧ n - 1000 * q ≤ 500) ∧
    format_num 99999 = "99999" ∧ format_num 100000 = "10.0万" ∧
    format_num 250000 = "25.0万" := by
  refine ⟨fun n h => ?_, fun n h => ?_, by decide, by decide, by decide⟩
  · simp [format_num, show ¬ (100000 : Int) ≤ n by omega]
  · refine ⟨roundTenths n, ?_, ?_, ?_⟩
    · simp [format_num, if_pos h, fmtOneDecimal]
    · have h1 : 1000 * (n / 1000) + n % 1000 = n := Int.ediv_add_emod n 1000
      have h2 : 0 ≤ n % 1000 := Int.emod_nonneg n (by norm_num)
      have h3 : n % 1000 < 1000 := Int.emod_lt_of_pos n (by norm_num)
      unfold roundTenths
      split_ifs <;> omega
    · have h1 : 1000 * (n / 1000) + n % 1000 = n := Int.ediv_add_emod n 1000
      have h2 : 0 ≤ n % 1000 := Int.emod_nonneg n (by norm_num)
      have h3 : n % 1000 < 1000 := Int.emod_lt_of_pos n (by norm_num)
      unfold roundTenths
      split_ifs <;> omega

/-- Witness for C4: both branches of the theorem instantiated. -/
theorem format_num_spec_witness :
    format_num 42 = "42" ∧ ∃ q : Int,
      format_num 123456 = toString (q / 10) ++ "." ++ toString (q % 10) ++ "万" ∧
      -500 ≤ 123456 - 1000 * q ∧ 123456 - 1000 * q ≤ 500 :=
  ⟨format_num_spec.1 42 (by decide), format_num_spec.2.1 123456 (by decide)⟩

/-- C5: saving a record under a date key and loading that key returns exactly
the saved record, for every prior document. -/
theorem save_load_roundtrip (doc : HistoryDoc) (d : String) (R : List Item) :
    load_data (save_data doc d R) d = R := by
  simp [load_data, save_data, docLookup_insert_self]

/-- C9: `save_data` is framed to its date key: the saved key maps to the new
record, every other key keeps its prior value. -/
theorem save_data_frame (doc : HistoryDoc) (d : String) (R : List Item) :
    docLookup (save_data doc d R) d = some R ∧
    ∀ d', d' ≠ d → docLookup (save_data doc d R) d' = docLookup doc d' :=
  ⟨docLookup_insert_self doc d R, fun _ h => docLookup_insert_other doc d _ R h⟩

/-- Witness for C9: a two-key document, saving one key leaves the other. -/
theorem save_data_frame_witness :
    docLookup (save_data [("2024-01-01", [⟨1, "A", 5⟩]), ("2024-01-02", [])]
        "2024-01-02" [⟨1, "B", 9⟩]) "2024-01-01" = some [⟨1, "A", 5⟩] := by
  rw [(save_data_frame [("2024-01-01", [⟨1, "A", 5⟩]), ("2024-01-02", [])]
        "2024-01-02" [⟨1, "B", 9⟩]).2 "2024-01-01" (by decide)]
  decide

/-- C8 counterexample: a body with `ok == 1` and a `data` field that lacks the
`realtime` key does *not* yield the empty sequence — `process_raw_data` raises
`KeyError` (line 38 indexes `raw_data["data"]["realtime"]` unguarded). -/
theorem process_raw_data_keyerror :
    process_raw_data ⟨some 1, some ⟨none⟩⟩ = Except.error "KeyError: realtime" ∧
    process_raw_data ⟨some 1, some ⟨none⟩⟩ ≠ Except.ok [] := by
  refine ⟨rfl, fun h => ?_⟩
  rw [process_raw_data_of_no_realtime ⟨none⟩ rfl] at h
  cases h

/-- C8 amended: a body whose `ok` field is not 1 or whose `data` key is absent
yields the empty sequence; a body with `ok == 1` and a `data` field lacking the
`realtime` key raises `KeyError` (caught by the caller); otherwise the result
is exactly the realtime entries that carry a `realpos` field, each projected to
its `realpos`/`word`/`num` fields, the others excluded. -/
theorem process_raw_data_spec :
    (∀ raw : RawData, raw.ok ≠ some 1 ∨ raw.data = none →
      process_raw_data raw = Except.ok []) ∧
    (∀ p : RawPayload, p.realtime = none →
      process_raw_data ⟨some 1, some p⟩ = Except.error "KeyError: realtime") ∧
    (∀ entries : List RawEntry,
      process_raw_data ⟨some 1, some ⟨some entries⟩⟩ =
        Except.ok ((entries.filter fun e => e.realpos.isSome).map
          fun e => { realpos := e.realpos.getD 0, word := e.word, num := e.num })) :=
  ⟨process_raw_data_of_bad_shape, process_raw_data_of_no_realtime,
    process_raw_data_of_realtime⟩

/-- Witness for C8 amended: all three branches at concrete bodies. -/
theorem process_raw_data_spec_witness :
    process_raw_data ⟨some 0, some ⟨some []⟩⟩ = Except.ok [] ∧
    process_raw_data ⟨some 1, some ⟨none⟩⟩ = Except.error "KeyError: realtime" ∧
    process_raw_data ⟨some 1, some ⟨some [⟨some 3, "A", 7⟩, ⟨none, "ad", 9⟩]⟩⟩ =
      Except.ok ((([⟨some 3, "A", 7⟩, ⟨none, "ad", 9⟩] : List RawEntry).filter
          fun e => e.realpos.isSome).map
        fun e => { realpos := e.realpos.getD 0, word := e.word, num := e.num }) :=
  ⟨process_raw_data_spec.1 ⟨some 0, some ⟨some []⟩⟩ (Or.inl (by decide)),
   process_raw_data_spec.2.1 ⟨none⟩ rfl,
   process_raw_data_spec.2.2 [⟨some 3, "A", 7⟩, ⟨none, "ad", 9⟩]⟩

/-- C6: on fetch failure — a network/parse exception, a non-200 status, or a
malformed body — the fetcher returns the empty list and `daily_task` leaves
the whole file-system state (history document and report directory) unchanged. -/
theorem fetch_failure_short_circuits (resp : FetchOutcome) (t : Stamp)
    (st : PipelineState) (h : fetchFailure resp) :
    fetch_hot_search resp = [] ∧ daily_task resp t st = st := by
  have hf := fetch_hot_search_of_failure resp h
  refine ⟨hf, ?_⟩
  simp [daily_task, hf]

/-- Witness for C6: a 404 response against a non-empty state. -/
theorem fetch_failure_short_circuits_witness :
    daily_task (Except.ok (404, ⟨some 1, some ⟨some [⟨some 1, "A", 5⟩]⟩⟩))
      ⟨2024, 5, 12, 9, 30⟩
      ⟨[("2024-05-11", [⟨1, "B", 3⟩])], [("files/old.md", "old")]⟩ =
    ⟨[("2024-05-11", [⟨1, "B", 3⟩])], [("files/old.md", "old")]⟩ :=
  (fetch_failure_short_circuits _ _ _
    (Or.inr (Or.inl ⟨404, _, rfl, by decide⟩))).2

/-- C10: in the rendered report, the rank cell of row `i` is the row's 1-based
position computed by `enumerate(data, 1)`: it is independent of the `realpos`
field stored in the entries, and row `i` renders as `| i+1 | ...`. -/
theorem markdown_rank_is_position (data : List Item) (f : Item → Int) (i : Nat)
    (it : Item) (h : data[i]? = some it) :
    markdownRows (data.map fun x => { x with realpos := f x }) = markdownRows data ∧
    (markdownRows data)[i]? = some (renderRow (i + 1) it) ∧
    ∃ s, renderRow (i + 1) it = "| " ++ toString (i + 1) ++ " | " ++ s := by
  refine ⟨rowsFrom_map_realpos f data 1, ?_, ⟨rowBody it, rfl⟩⟩
  rw [markdownRows, rowsFrom_getElem data 1 i, h]
  simp [Nat.add_comm]

/-- Witness for C10: a singleton list whose stored `realpos` is 7 still renders
with rank 1. -/
theorem markdown_rank_is_position_witness :
    markdownRows [⟨7, "A", 500⟩] = markdownRows [⟨1, "A", 500⟩] ∧
    (markdownRows [⟨1, "A", 500⟩])[0]? = some (renderRow 1 ⟨1, "A", 500⟩) := by
  have h := markdown_rank_is_position [⟨1, "A", 500⟩] (fun _ => 7) 0 ⟨1, "A", 500⟩ rfl
  exact ⟨h.1, h.2.1⟩

/-! ## Lemmas: the tagged merge (argument mutation) -/

lemma mem_dictInsertT {m : List TItem} {x b : TItem} (hb : b ∈ dictInsertT m x) :
    b ∈ m ∨ b = x := by
  induction m with
  | nil =>
    simp only [dictInsertT, List.mem_singleton] at hb
    exact Or.inr hb
  | cons y ys ih =>
    simp only [dictInsertT] at hb
    split at hb
    · rcases List.mem_cons.mp hb with h | h
      · exact Or.inr h
      · exact Or.inl (List.mem_cons_of_mem y h)
    · rcases List.mem_cons.mp hb with h | h
      · exact Or.inl (h ▸ List.mem_cons_self y ys)
      · rcases ih h with h' | h'
        · exact Or.inl (List.mem_cons_of_mem y h')
        · exact Or.inr h'

lemma mem_stepT {m : List TItem} {x b : TItem} (hb : b ∈ stepT m x) :
    b ∈ m ∨ b = x := by
  unfold stepT at hb
  split at hb
  · exact mem_dictInsertT hb
  · split at hb
    · exact mem_dictInsertT hb
    · exact Or.inl hb

lemma mem_foldl_stepT (X : List TItem) :
    ∀ (m : List TItem) (b : TItem), b ∈ X.foldl stepT m → b ∈ m ∨ b ∈ X := by
  induction X with
  | nil => intro m b hb; exact Or.inl hb
  | cons x xs ih =>
    intro m b hb
    rcases ih (stepT m x) b hb with h | h
    · rcases mem_stepT h with h' | h'
      · exact Or.inl h'
      · exact Or.inr (h' ▸ List.mem_cons_self x xs)
    · exact Or.inr (List.mem_cons_of_mem x h)

lemma mem_seedT {history : List TItem} {b : TItem} (hb : b ∈ seedT history) :
    b ∈ history := by
  have gen : ∀ (l m : List TItem) (c : TItem), c ∈ l.foldl dictInsertT m → c ∈ m ∨ c ∈ l := by
    intro l
    induction l with
    | nil => intro m c hc; exact Or.inl hc
    | cons y ys ih =>
      intro m c hc
      rcases ih (dictInsertT m y) c hc with h | h
      · rcases mem_dictInsertT h with h' | h'
        · exact Or.inl h'
        · exact Or.inr (h' ▸ List.mem_cons_self y ys)
      · exact Or.inr (List.mem_cons_of_mem y h)
  rcases gen history [] b hb with h | h
  · cases h
  · exact h

lemma mem_ranksFromT {l : List TItem} {b : TItem} :
    ∀ {k : Int}, b ∈ ranksFromT k l → ∃ a ∈ l, b.1 = a.1 ∧ b.2.word = a.2.word ∧ b.2.num = a.2.num := by
  induction l with
  | nil => intro k hb; cases hb
  | cons x xs ih =>
    intro k hb
    rcases List.mem_cons.mp hb with h | h
    · exact ⟨x, List.mem_cons_self x xs, by simp [h]⟩
    · obtain ⟨a, ha, h1, h2, h3⟩ := ih h
      exact ⟨a, List.mem_cons_of_mem x ha, h1, h2, h3⟩

lemma mem_merge_dataT {tnew thist : List TItem} {q : TItem}
    (hq : q ∈ merge_dataT tnew thist) :
    ∃ a : TItem, (a ∈ tnew ∨ a ∈ thist) ∧ q.1 = a.1 ∧ q.2.word = a.2.word ∧
      q.2.num = a.2.num := by
  obtain ⟨a, ha, h1, h2, h3⟩ := mem_ranksFromT hq
  have ha' : a ∈ sortDescT (tnew.foldl stepT (seedT thist)) := List.take_subset 50 _ ha
  have ha'' : a ∈ tnew.foldl stepT (seedT thist) := by
    have := List.perm_insertionSort numGET (tnew.foldl stepT (seedT thist))
    exact this.mem_iff.mp ha'
  rcases mem_foldl_stepT tnew (seedT thist) a ha'' with h | h
  · exact ⟨a, Or.inr (mem_seedT h), h1, h2, h3⟩
  · exact ⟨a, Or.inl h, h1, h2, h3⟩

/-- C7 counterexample: the merge does *not* leave its `new_data` argument
unmodified.  The dicts collected into `sorted_data` are the caller's objects,
and lines 71-72 overwrite their `realpos` in place: after
`merge_data([{realpos:5, word:"A", num:100}], ...)` with empty history, the
caller's list holds `{realpos:1, word:"A", num:100}`. -/
theorem merge_mutates_new_items :
    newDataAfter [(0, ⟨5, "A", 100⟩)] [] ≠ [(0, ⟨5, "A", 100⟩)] := by decide

/-- C7 amended: the merge is a deterministic, total function of its in-memory
inputs (the new items and the loaded history), but it mutates its `new_data`
argument in place: the `realpos` field of each new item placed in the truncated
output is overwritten with its new rank.  The mutation touches only `realpos`:
object identities, words and popularity values of the argument are preserved. -/
theorem merge_mutation_only_realpos (tnew thist : List TItem)
    (h : ((tnew ++ thist).map Prod.fst).Nodup) :
    (newDataAfter tnew thist).map (fun p => (p.1, p.2.word, p.2.num)) =
      tnew.map (fun p => (p.1, p.2.word, p.2.num)) := by
  unfold newDataAfter
  rw [List.map_map]
  apply List.map_congr_left
  intro p hp
  simp only [Function.comp_apply]
  cases hfind : (merge_dataT tnew thist).find? (fun q => q.1 == p.1) with
  | none => simp only [hfind]
  | some q =>
    simp only [hfind]
    have hqmem : q ∈ merge_dataT tnew thist := List.mem_of_find?_eq_some hfind
    have hb := List.find?_some hfind
    simp only [beq_iff_eq] at hb
    have hqid : q.1 = p.1 := hb
    obtain ⟨a, hamem, h1, h2, h3⟩ := mem_merge_dataT hqmem
    have hamem' : a ∈ tnew ++ thist := by
      rcases hamem with ha | ha
      · exact List.mem_append_left thist ha
      · exact List.mem_append_right tnew ha
    have hap : a = p :=
      List.inj_on_of_nodup_map h hamem' (List.mem_append_left thist hp)
        (h1.symm.trans hqid)
    have h2' : q.2.word = p.2.word := hap ▸ h2
    have h3' : q.2.num = p.2.num := hap ▸ h3
    rw [hqid, h2', h3']

/-- Witness for C7 amended: concrete tagged lists with distinct identities. -/
theorem merge_mutation_only_realpos_witness :
    (newDataAfter ([(0, ⟨5, "A", 100⟩), (1, ⟨6, "B", 50⟩)] : List TItem)
        ([(2, ⟨1, "A", 80⟩)] : List TItem)).map
        (fun p => (p.1, p.2.word, p.2.num)) =
      ([(0, ⟨5, "A", 100⟩), (1, ⟨6, "B", 50⟩)] : List TItem).map
        (fun p => (p.1, p.2.word, p.2.num)) :=
  merge_mutation_only_realpos [(0, ⟨5, "A", 100⟩), (1, ⟨6, "B", 50⟩)]
    [(2, ⟨1, "A", 80⟩)] (by decide)

/-! ## Lemmas: the word-keyed dict -/

@[simp] lemma words_nil : words [] = [] := rfl

@[simp] lemma words_cons (y : Item) (m : List Item) :
    words (y :: m) = y.word :: words m := rfl

lemma words_append (a b : List Item) : words (a ++ b) = words a ++ words b :=
  List.map_append _ a b

lemma mem_words {m : List Item} {w : String} : w ∈ words m ↔ ∃ e ∈ m, e.word = w := by
  simp [words, List.mem_map]

lemma wlookup_cons (y : Item) (m : List Item) (w : String) :
    wlookup (y :: m) w = if y.word == w then some y else wlookup m w := by
  cases h : (y.word == w) with
  | true => simp [wlookup, List.find?_cons_of_pos, h]
  | false => simp [wlookup, List.find?_cons_of_neg, h]

lemma wlookup_eq_none {m : List Item} {w : String} :
    wlookup m w = none ↔ w ∉ words m := by
  rw [wlookup, List.find?_eq_none]
  constructor
  · intro h hw
    obtain ⟨e, he, hew⟩ := mem_words.mp hw
    exact absurd (by simpa using hew) (h e he)
  · intro h e he
    simp only [beq_iff_eq]
    intro hew
    exact h (mem_words.mpr ⟨e, he, hew⟩)

lemma dictInsert_of_not_mem {m : List Item} {x : Item} (h : x.word ∉ words m) :
    dictInsert m x = m ++ [x] := by
  induction m with
  | nil => rfl
  | cons y ys ih =>
    rw [words_cons, List.mem_cons, not_or] at h
    have hy : (y.word == x.word) = false := beq_eq_false_iff_ne.mpr (Ne.symm h.1)
    simp [dictInsert, hy, ih h.2]

lemma words_dictInsert_of_mem {m : List Item} {x : Item} (h : x.word ∈ words m) :
    words (dictInsert m x) = words m := by
  induction m with
  | nil => simp [words] at h
  | cons y ys ih =>
    by_cases hy : y.word = x.word
    · have hyb : (y.word == x.word) = true := beq_iff_eq.mpr hy
      simp [dictInsert, hyb, words, hy]
    · have hyb : (y.word == x.word) = false := beq_eq_false_iff_ne.mpr hy
      have h' : x.word ∈ words ys := by
        rcases List.mem_cons.mp (by simpa using h) with h'' | h''
        · exact absurd h''.symm hy
        · exact h''
      simp [dictInsert, hyb, ih h']

lemma words_dictInsert_nodup {m : List Item} {x : Item} (h : (words m).Nodup) :
    (words (dictInsert m x)).Nodup := by
  by_cases hm : x.word ∈ words m
  · rw [words_dictInsert_of_mem hm]; exact h
  · rw [dictInsert_of_not_mem hm, words_append]
    refine List.Nodup.append h (List.nodup_singleton _) ?_
    intro a ha hb
    rw [show words [x] = [x.word] from rfl, List.mem_singleton] at hb
    subst hb
    exact hm ha

lemma mem_dictInsert {m : List Item} {x b : Item} (hb : b ∈ dictInsert m x) :
    b ∈ m ∨ b = x := by
  induction m with
  | nil =>
    simp only [dictInsert, List.mem_singleton] at hb
    exact Or.inr hb
  | cons y ys ih =>
    simp only [dictInsert] at hb
    split at hb
    · rcases List.mem_cons.mp hb with h | h
      · exact Or.inr h
      · exact Or.inl (List.mem_cons_of_mem y h)
    · rcases List.mem_cons.mp hb with h | h
      · exact Or.inl (h ▸ List.mem_cons_self y ys)
      · rcases ih h with h' | h'
        · exact Or.inl (List.mem_cons_of_mem y h')
        · exact Or.inr h'

lemma wlookup_dictInsert_self (m : List Item) (x : Item) :
    wlookup (dictInsert m x) x.word = some x := by
  induction m with
  | nil => simp [dictInsert, wlookup_cons]
  | cons y ys ih =>
    cases hy : (y.word == x.word) with
    | true => simp [dictInsert, hy, wlookup_cons]
    | false => simp [dictInsert, hy, wlookup_cons, ih]

lemma wlookup_dictInsert_other {m : List Item} {x : Item} {w : String} (h : w ≠ x.word) :
    wlookup (dictInsert m x) w = wlookup m w := by
  have hx : (x.word == w) = false := beq_eq_false_iff_ne.mpr (Ne.symm h)
  induction m with
  | nil => simp [dictInsert, wlookup_cons, hx, wlookup]
  | cons y ys ih =>
    cases hy : (y.word == x.word) with
    | true =>
      have hyw : (y.word == w) = false := by
        rw [beq_iff_eq] at hy
        rw [hy]
        exact hx
      simp [dictInsert, hy, wlookup_cons, hyw, hx]
    | false => simp [dictInsert, hy, wlookup_cons, ih]

lemma dictInsert_append_left {R A : List Item} {x : Item} (h : x.word ∉ words R) :
    dictInsert (R ++ A) x = R ++ dictInsert A x := by
  induction R with
  | nil => rfl
  | cons r rs ih =>
    rw [words_cons, List.mem_cons, not_or] at h
    have hr : (r.word == x.word) = false := beq_eq_false_iff_ne.mpr (Ne.symm h.1)
    simp [dictInsert, hr, ih h.2]

/-! ## Lemmas: the upsert step -/

lemma words_step_nodup {m : List Item} {x : Item} (h : (words m).Nodup) :
    (words (step m x)).Nodup := by
  unfold step
  split
  · exact words_dictInsert_nodup h
  · split
    · exact words_dictInsert_nodup h
    · exact h

lemma mem_step {m : List Item} {x b : Item} (hb : b ∈ step m x) : b ∈ m ∨ b = x := by
  unfold step at hb
  split at hb
  · exact mem_dictInsert hb
  · split at hb
    · exact mem_dictInsert hb
    · exact Or.inl hb

lemma bumpW_other {w : String} {o : Option Item} {x : Item} (h : w ≠ x.word) :
    bumpW w o x = o := by
  simp [bumpW, beq_eq_false_iff_ne.mpr (Ne.symm h)]

lemma wlookup_step_self (m : List Item) (x : Item) :
    wlookup (step m x) x.word = bumpW x.word (wlookup m x.word) x := by
  cases h : wlookup m x.word with
  | none => simp [step, bumpW, h, wlookup_dictInsert_self]
  | some e =>
    by_cases hn : e.num < x.num
    · simp [step, bumpW, h, hn, wlookup_dictInsert_self]
    · simp [step, bumpW, h, hn]

lemma wlookup_step_other {m : List Item} {x : Item} {w : String} (h : w ≠ x.word) :
    wlookup (step m x) w = wlookup m w := by
  unfold step
  split
  · exact wlookup_dictInsert_other h
  · split
    · exact wlookup_dictInsert_other h
    · rfl

lemma words_foldl_step_nodup (X : List Item) :
    ∀ {m : List Item}, (words m).Nodup → (words (X.foldl step m)).Nodup := by
  induction X with
  | nil => intro m h; exact h
  | cons x xs ih => intro m h; exact ih (words_step_nodup h)

lemma mem_foldl_step (X : List Item) :
    ∀ (m : List Item) (b : Item), b ∈ X.foldl step m → b ∈ m ∨ b ∈ X := by
  induction X with
  | nil => intro m b hb; exact Or.inl hb
  | cons x xs ih =>
    intro m b hb
    rcases ih (step m x) b hb with h | h
    · rcases mem_step h with h' | h'
      · exact Or.inl h'
      · exact Or.inr (h' ▸ List.mem_cons_self x xs)
    · exact Or.inr (List.mem_cons_of_mem x h)

lemma wlookup_foldl_step (X : List Item) :
    ∀ (m : List Item) (w : String),
      wlookup (X.foldl step m) w = wordRun w (wlookup m w) X := by
  induction X with
  | nil => intro m w; rfl
  | cons x xs ih =>
    intro m w
    show wlookup (xs.foldl step (step m x)) w = wordRun w (bumpW w (wlookup m w) x) xs
    rw [ih (step m x) w]
    congr 1
    by_cases hw : w = x.word
    · subst hw
      exact wlookup_step_self m x
    · rw [wlookup_step_other hw, bumpW_other hw]

/-! ## Lemmas: seeding the dict from the stored record -/

lemma foldl_dictInsert_words_nodup (l : List Item) :
    ∀ {m : List Item}, (words m).Nodup → (words (l.foldl dictInsert m)).Nodup := by
  induction l with
  | nil => intro m h; exact h
  | cons x xs ih => intro m h; exact ih (words_dictInsert_nodup h)

lemma seed_words_nodup (R : List Item) : (words (seed R)).Nodup :=
  foldl_dictInsert_words_nodup R (by simp [words])

lemma mem_seed {R : List Item} {b : Item} (hb : b ∈ seed R) : b ∈ R := by
  have gen : ∀ (l m : List Item) (c : Item), c ∈ l.foldl dictInsert m → c ∈ m ∨ c ∈ l := by
    intro l
    induction l with
    | nil => intro m c hc; exact Or.inl hc
    | cons y ys ih =>
      intro m c hc
      rcases ih (dictInsert m y) c hc with h | h
      · rcases mem_dictInsert h with h' | h'
        · exact Or.inl h'
        · exact Or.inr (h' ▸ List.mem_cons_self y ys)
      · exact Or.inr (List.mem_cons_of_mem y h)
  rcases gen R [] b hb with h | h
  · cases h
  · exact h

lemma seed_eq_of_nodup {R : List Item} (h : (words R).Nodup) : seed R = R := by
  have gen : ∀ (l m : List Item), (words (m ++ l)).Nodup → l.foldl dictInsert m = m ++ l := by
    intro l
    induction l with
    | nil => intro m _; simp
    | cons x xs ih =>
      intro m hnd
      have hx : x.word ∉ words m := by
        intro hmem
        rw [words_append] at hnd
        exact (List.disjoint_of_nodup_append hnd) hmem (by simp [words])
      show xs.foldl dictInsert (dictInsert m x) = m ++ x :: xs
      rw [dictInsert_of_not_mem hx]
      have h' : (words ((m ++ [x]) ++ xs)).Nodup := by
        rw [List.append_assoc, List.singleton_append]
        exact hnd
      rw [ih (m ++ [x]) h']
      simp
  have := gen R [] (by simpa using h)
  simpa [seed] using this

/-! ## Lemmas: the per-word view of the merge loop -/

lemma wordRun_some (w : String) (X : List Item) :
    ∀ e : Item, ∃ e', wordRun w (some e) X = some e' ∧ e.num ≤ e'.num := by
  induction X with
  | nil => intro e; exact ⟨e, rfl, le_refl _⟩
  | cons x xs ih =>
    intro e
    show ∃ e', wordRun w (bumpW w (some e) x) xs = some e' ∧ e.num ≤ e'.num
    cases hb : (x.word == w) with
    | false =>
      rw [show bumpW w (some e) x = some e by simp [bumpW, hb]]
      exact ih e
    | true =>
      by_cases hn : e.num < x.num
      · rw [show bumpW w (some e) x = some x by simp [bumpW, hb, hn]]
        obtain ⟨e', h1, h2⟩ := ih x
        exact ⟨e', h1, le_trans (le_of_lt hn) h2⟩
      · rw [show bumpW w (some e) x = some e by simp [bumpW, hb, hn]]
        exact ih e

lemma wordRun_ge_of_mem (w : String) (x : Item) (hw : x.word = w) :
    ∀ X : List Item, x ∈ X →
      ∀ o, ∃ e', wordRun w o X = some e' ∧ x.num ≤ e'.num := by
  intro X
  induction X with
  | nil => intro hx; cases hx
  | cons y ys ih =>
    intro hx o
    rcases List.mem_cons.mp hx with rfl | hx'
    · have hb : (x.word == w) = true := beq_iff_eq.mpr hw
      have hbump : ∃ e0, bumpW w o x = some e0 ∧ x.num ≤ e0.num := by
        cases o with
        | none => exact ⟨x, by simp [bumpW, hb], le_refl _⟩
        | some e =>
          by_cases hn : e.num < x.num
          · exact ⟨x, by simp [bumpW, hb, hn], le_refl _⟩
          · exact ⟨e, by simp [bumpW, hb, hn], not_lt.mp hn⟩
      obtain ⟨e0, h0, hx0⟩ := hbump
      obtain ⟨e', h1, h2⟩ := wordRun_some w ys e0
      refine ⟨e', ?_, le_trans hx0 h2⟩
      show wordRun w (bumpW w o x) ys = some e'
      rw [h0]
      exact h1
    · exact ih hx' (bumpW w o y)

lemma wordRun_num_max (w : String) (X : List Item) :
    ∀ e : Item, e.word = w →
      ∃ e', wordRun w (some e) X = some e' ∧ e'.word = w ∧
        e'.num = maxAt w e.num X := by
  induction X with
  | nil => intro e he; exact ⟨e, rfl, he, rfl⟩
  | cons x xs ih =>
    intro e he
    show ∃ e', wordRun w (bumpW w (some e) x) xs = some e' ∧ e'.word = w ∧
      e'.num = maxAt w e.num (x :: xs)
    cases hb : (x.word == w) with
    | false =>
      have hne : ¬ x.word = w := by simpa using hb
      obtain ⟨e', h1, h2, h3⟩ := ih e he
      refine ⟨e', ?_, h2, ?_⟩
      · rw [show bumpW w (some e) x = some e by simp [bumpW, hb]]
        exact h1
      · rw [show maxAt w e.num (x :: xs) = maxAt w e.num xs by
          simp [maxAt, List.foldl_cons, hne]]
        exact h3
    | true =>
      have hxw : x.word = w := beq_iff_eq.mp hb
      by_cases hn : e.num < x.num
      · obtain ⟨e', h1, h2, h3⟩ := ih x hxw
        refine ⟨e', ?_, h2, ?_⟩
        · rw [show bumpW w (some e) x = some x by simp [bumpW, hb, hn]]
          exact h1
        · rw [show maxAt w e.num (x :: xs) = maxAt w x.num xs by
            simp [maxAt, List.foldl_cons, hxw, max_eq_right (le_of_lt hn)]]
          exact h3
      · obtain ⟨e', h1, h2, h3⟩ := ih e he
        refine ⟨e', ?_, h2, ?_⟩
        · rw [show bumpW w (some e) x = some e by simp [bumpW, hb, hn]]
          exact h1
        · rw [show maxAt w e.num (x :: xs) = maxAt w e.num xs by
            simp [maxAt, List.foldl_cons, hxw, max_eq_left (not_lt.mp hn)]]
          exact h3

lemma maxAt_eq_base {w : String} :
    ∀ (X : List Item) (b : Int), (∀ x ∈ X, x.word = w → x.num ≤ b) →
      maxAt w b X = b := by
  intro X
  induction X with
  | nil => intro b _; rfl
  | cons x xs ih =>
    intro b h
    cases hb : (x.word == w) with
    | false =>
      have hne : ¬ x.word = w := by simpa using hb
      rw [show maxAt w b (x :: xs) = maxAt w b xs by simp [maxAt, List.foldl_cons, hne]]
      exact ih b (fun y hy => h y (List.mem_cons_of_mem x hy))
    | true =>
      have hxw : x.word = w := beq_iff_eq.mp hb
      have hxb : x.num ≤ b := h x (List.mem_cons_self x xs) hxw
      rw [show maxAt w b (x :: xs) = maxAt w b xs by
        simp [maxAt, List.foldl_cons, hxw, max_eq_left hxb]]
      exact ih b (fun y hy => h y (List.mem_cons_of_mem x hy))

/-! ## Lemmas: lookup in a duplicate-free dict, and over appends -/

lemma wlookup_of_mem_nodup {m : List Item} {e : Item}
    (h : (words m).Nodup) (he : e ∈ m) : wlookup m e.word = some e := by
  induction m with
  | nil => cases he
  | cons y ys ih =>
    have hn := List.nodup_cons.mp h
    rcases List.mem_cons.mp he with rfl | he'
    · simp [wlookup_cons]
    · have hy : (y.word == e.word) = false := by
        rw [beq_eq_false_iff_ne]
        intro hye
        apply hn.1
        show y.word ∈ words ys
        rw [hye]
        exact mem_words.mpr ⟨e, he', rfl⟩
      rw [wlookup_cons, hy]
      simpa using ih hn.2 he'

lemma wlookup_append_some {R : List Item} {w : String} {e : Item}
    (h : wlookup R w = some e) (A : List Item) : wlookup (R ++ A) w = some e := by
  induction R with
  | nil => simp [wlookup] at h
  | cons y ys ih =>
    rw [wlookup_cons] at h
    rw [List.cons_append, wlookup_cons]
    cases hy : (y.word == w) with
    | true =>
      rw [hy] at h
      simpa using h
    | false =>
      rw [hy] at h
      simp only [Bool.false_eq_true, if_false] at h ⊢
      exact ih h

lemma wlookup_append_none {R : List Item} {w : String}
    (h : wlookup R w = none) (A : List Item) : wlookup (R ++ A) w = wlookup A w := by
  induction R with
  | nil => rfl
  | cons y ys ih =>
    rw [wlookup_cons] at h
    cases hy : (y.word == w) with
    | true =>
      rw [hy] at h
      simp at h
    | false =>
      rw [hy] at h
      simp only [Bool.false_eq_true, if_false] at h
      rw [List.cons_append, wlookup_cons, hy]
      simpa using ih h

lemma step_append {R A : List Item} {x : Item} (h : wlookup R x.word = none) :
    step (R ++ A) x = R ++ step A x := by
  have hw : x.word ∉ words R := wlookup_eq_none.mp h
  unfold step
  rw [wlookup_append_none h]
  cases hA : wlookup A x.word with
  | none => exact dictInsert_append_left hw
  | some e =>
    by_cases hn : e.num < x.num
    · simpa [hn] using dictInsert_append_left (A := A) (x := x) hw
    · simp [hn]

lemma step_append_frozen {R A : List Item} {x e : Item}
    (h : wlookup R x.word = some e) (hn : ¬ e.num < x.num) :
    step (R ++ A) x = R ++ A := by
  unfold step
  rw [wlookup_append_some h]
  simp [hn]

lemma foldl_step_append (X : List Item) :
    ∀ (R A : List Item),
      (∀ x ∈ X, ∀ e, wlookup R x.word = some e → ¬ e.num < x.num) →
      X.foldl step (R ++ A) =
        R ++ (X.filter fun x => (wlookup R x.word).isNone).foldl step A := by
  induction X with
  | nil => intro R A _; rfl
  | cons x xs ih =>
    intro R A hsat
    cases hx : wlookup R x.word with
    | some e =>
      have hn := hsat x (List.mem_cons_self x xs) e hx
      rw [show (x :: xs).filter (fun x => (wlookup R x.word).isNone) =
          xs.filter (fun x => (wlookup R x.word).isNone) by
        simp [List.filter_cons, hx]]
      show xs.foldl step (step (R ++ A) x) = _
      rw [step_append_frozen hx hn]
      exact ih R A (fun y hy => hsat y (List.mem_cons_of_mem x hy))
    | none =>
      rw [show (x :: xs).filter (fun x => (wlookup R x.word).isNone) =
          x :: xs.filter (fun x => (wlookup R x.word).isNone) by
        simp [List.filter_cons, hx]]
      show xs.foldl step (step (R ++ A) x) =
        R ++ (xs.filter fun x => (wlookup R x.word).isNone).foldl step (step A x)
      rw [step_append hx]
      exact ih R (step A x) (fun y hy => hsat y (List.mem_cons_of_mem x hy))

/-! ## Lemmas: rank reassignment -/

lemma ranksFrom_length (l : List Item) : ∀ k, (ranksFrom k l).length = l.length := by
  induction l with
  | nil => intro k; rfl
  | cons x xs ih => intro k; simp [ranksFrom, ih]

lemma words_ranksFrom (l : List Item) : ∀ k, words (ranksFrom k l) = words l := by
  induction l with
  | nil => intro k; rfl
  | cons x xs ih =>
    intro k
    show x.word :: words (ranksFrom (k + 1) xs) = x.word :: words xs
    rw [ih (k + 1)]

lemma ranksFrom_map_realpos (l : List Item) :
    ∀ k, (ranksFrom k l).map (·.realpos) = intsFrom k l.length := by
  induction l with
  | nil => intro k; rfl
  | cons x xs ih => intro k; simp [ranksFrom, intsFrom, ih (k + 1)]

lemma mem_ranksFrom {l : List Item} {b : Item} :
    ∀ {k : Int}, b ∈ ranksFrom k l → ∃ a ∈ l, b.word = a.word ∧ b.num = a.num := by
  induction l with
  | nil => intro k hb; cases hb
  | cons x xs ih =>
    intro k hb
    rcases List.mem_cons.mp hb with h | h
    · exact ⟨x, List.mem_cons_self x xs, by simp [h]⟩
    · obtain ⟨a, ha, h1, h2⟩ := ih h
      exact ⟨a, List.mem_cons_of_mem x ha, h1, h2⟩

lemma ranksFrom_ranksFrom (l : List Item) :
    ∀ k, ranksFrom k (ranksFrom k l) = ranksFrom k l := by
  induction l with
  | nil => intro k; rfl
  | cons x xs ih => intro k; simp [ranksFrom, ih (k + 1)]

lemma pairwise_numGE_ranksFrom (l : List Item) :
    ∀ k, List.Pairwise numGE l → List.Pairwise numGE (ranksFrom k l) := by
  induction l with
  | nil => intro k _; exact List.Pairwise.nil
  | cons x xs ih =>
    intro k h
    have h' := List.pairwise_cons.mp h
    refine List.pairwise_cons.mpr ⟨?_, ih (k + 1) h'.2⟩
    intro y hy
    obtain ⟨a, ha, _, hn⟩ := mem_ranksFrom hy
    show y.num ≤ x.num
    rw [hn]
    exact h'.1 a ha

/-! ## Lemmas: the stable descending sort -/

lemma sortDesc_sorted (l : List Item) : List.Pairwise numGE (sortDesc l) :=
  List.sorted_insertionSort numGE l

lemma sortDesc_perm (l : List Item) : List.Perm (sortDesc l) l :=
  List.perm_insertionSort numGE l

lemma orderedInsert_of_forall_le {x : Item} {l : List Item}
    (h : ∀ y ∈ l, y.num ≤ x.num) : l.orderedInsert numGE x = x :: l := by
  cases l with
  | nil => rfl
  | cons y ys => exact List.orderedInsert_of_le numGE ys (h y (List.mem_cons_self y ys))

lemma sortDesc_of_sorted {l : List Item} (h : List.Pairwise numGE l) : sortDesc l = l := by
  induction l with
  | nil => rfl
  | cons x xs ih =>
    have h' := List.pairwise_cons.mp h
    show (List.insertionSort numGE xs).orderedInsert numGE x = x :: xs
    rw [show List.insertionSort numGE xs = xs from ih h'.2]
    exact orderedInsert_of_forall_le h'.1

lemma insertionSort_append (l₁ l₂ : List Item) :
    List.insertionSort numGE (l₁ ++ l₂) =
      l₁.foldr (fun a acc => acc.orderedInsert numGE a)
        (List.insertionSort numGE l₂) := by
  induction l₁ with
  | nil => rfl
  | cons a l ih =>
    show List.orderedInsert numGE a (List.insertionSort numGE (l ++ l₂)) = _
    rw [ih]
    rfl

lemma foldr_orderedInsert_absorb {R L : List Item}
    (hR : List.Pairwise numGE R) (hL : ∀ y ∈ L, ∀ x ∈ R, y.num ≤ x.num) :
    R.foldr (fun a acc => acc.orderedInsert numGE a) L = R ++ L := by
  induction R with
  | nil => rfl
  | cons x R' ih =>
    have h' := List.pairwise_cons.mp hR
    have hrec := ih h'.2 (fun y hy z hz => hL y hy z (List.mem_cons_of_mem x hz))
    have hall : ∀ y ∈ R' ++ L, y.num ≤ x.num := by
      intro y hy
      rcases List.mem_append.mp hy with hy' | hy'
      · exact h'.1 y hy'
      · exact hL y hy' x (List.mem_cons_self x R')
    simp only [List.foldr_cons, hrec]
    rw [orderedInsert_of_forall_le hall]
    rfl

lemma sortDesc_append_sorted {R A : List Item}
    (hR : List.Pairwise numGE R) (hA : ∀ y ∈ A, ∀ x ∈ R, y.num ≤ x.num) :
    sortDesc (R ++ A) = R ++ sortDesc A := by
  show List.insertionSort numGE (R ++ A) = R ++ sortDesc A
  rw [insertionSort_append]
  exact foldr_orderedInsert_absorb hR
    (fun y hy x hx => hA y ((List.mem_insertionSort numGE).mp hy) x hx)

/-! ## Lemmas: invariants of the merged record -/

lemma merge_data_eq (X R : List Item) :
    merge_data X R = ranksFrom 1 ((sortDesc (X.foldl step (seed R))).take 50) := rfl

lemma merge_data_words_nodup (X R : List Item) : (words (merge_data X R)).Nodup := by
  have h1 : (words (X.foldl step (seed R))).Nodup :=
    words_foldl_step_nodup X (seed_words_nodup R)
  have h2 : (words (sortDesc (X.foldl step (seed R)))).Nodup :=
    (((sortDesc_perm (X.foldl step (seed R))).map (fun it : Item => it.word)).nodup_iff).mpr h1
  have hsub : List.Sublist (words ((sortDesc (X.foldl step (seed R))).take 50))
      (words (sortDesc (X.foldl step (seed R)))) :=
    (List.take_sublist 50 (sortDesc (X.foldl step (seed R)))).map (fun it : Item => it.word)
  have h3 := List.Nodup.sublist hsub h2
  rw [merge_data_eq, words_ranksFrom]
  exact h3

lemma merge_data_sorted (X R : List Item) : List.Pairwise numGE (merge_data X R) := by
  rw [merge_data_eq]
  exact pairwise_numGE_ranksFrom _ 1
    (List.Pairwise.sublist (List.take_sublist _ _) (sortDesc_sorted _))

lemma merge_data_length_le (X R : List Item) : (merge_data X R).length ≤ 50 := by
  rw [merge_data_eq, ranksFrom_length]
  exact List.length_take_le 50 _

lemma merge_data_ranks (X R : List Item) :
    (merge_data X R).map (·.realpos) = intsFrom 1 (merge_data X R).length := by
  rw [merge_data_eq, ranksFrom_map_realpos, ranksFrom_length]

/-! ## Lemmas: idempotence of the merge -/

lemma day0_eq (X : List Item) : merge_data X [] = day0 X := rfl

lemma merged0_words_nodup (X : List Item) : (words (merged0 X)).Nodup :=
  words_foldl_step_nodup X (seed_words_nodup [])

lemma day0_words_nodup (X : List Item) : (words (day0 X)).Nodup := by
  have h := merge_data_words_nodup X []
  rwa [day0_eq] at h

lemma day0_sorted (X : List Item) : List.Pairwise numGE (day0 X) := by
  have h := merge_data_sorted X []
  rwa [day0_eq] at h

lemma merged0_lookup (X : List Item) (w : String) :
    wlookup (merged0 X) w = wordRun w none X := by
  rw [merged0, wlookup_foldl_step X (seed []) w]
  rfl

/-- Every item of `X` is dominated by the entry its word holds in the record
`merge_data X []`: the record never undercuts a popularity it has seen. -/
lemma sat_day0 (X : List Item) :
    ∀ x ∈ X, ∀ e, wlookup (day0 X) x.word = some e → ¬ e.num < x.num := by
  intro x hx e he
  have heM : e ∈ day0 X := List.mem_of_find?_eq_some he
  have hew : e.word = x.word := by simpa using List.find?_some he
  obtain ⟨t, ht, htw, htn⟩ := mem_ranksFrom heM
  have htS : t ∈ sortDesc (merged0 X) := List.take_subset 50 _ ht
  have htM : t ∈ merged0 X := ((sortDesc_perm (merged0 X)).mem_iff).mp htS
  have htx : t.word = x.word := by rw [← htw, hew]
  have hlook : wlookup (merged0 X) x.word = some t := by
    rw [← htx]
    exact wlookup_of_mem_nodup (merged0_words_nodup X) htM
  obtain ⟨e', h1, h2⟩ := wordRun_ge_of_mem x.word x rfl X hx none
  have he' : e' = t := by
    have h3 : wlookup (merged0 X) x.word = some e' := by
      rw [merged0_lookup]
      exact h1
    rw [h3] at hlook
    exact Option.some.inj hlook
  rw [htn]
  rw [he'] at h2
  exact not_lt.mpr h2

lemma foldl_step_day0_eq (X : List Item) :
    X.foldl step (seed (day0 X)) = day0 X ++ spill X := by
  rw [seed_eq_of_nodup (day0_words_nodup X)]
  have h := foldl_step_append X (day0 X) [] (sat_day0 X)
  rw [List.append_nil] at h
  exact h

lemma mem_spill {X : List Item} {a : Item} (ha : a ∈ spill X) :
    a ∈ X ∧ wlookup (day0 X) a.word = none := by
  rcases mem_foldl_step _ [] a ha with h | h
  · cases h
  · have h' := List.mem_filter.mp h
    exact ⟨h'.1, Option.isNone_iff_eq_none.mp h'.2⟩

lemma spill_word_not_in_day0 {X : List Item} {a : Item} (ha : a ∈ spill X) :
    a.word ∉ words (day0 X) :=
  wlookup_eq_none.mp (mem_spill ha).2

lemma spill_mem_merged0 {X : List Item} {a : Item} (ha : a ∈ spill X) :
    a ∈ merged0 X := by
  obtain ⟨haX, hnone⟩ := mem_spill ha
  have hBnodup : (words (X.foldl step (seed (day0 X)))).Nodup :=
    words_foldl_step_nodup X (seed_words_nodup _)
  have haB : a ∈ X.foldl step (seed (day0 X)) := by
    rw [foldl_step_day0_eq]
    exact List.mem_append_right _ ha
  have hlookB : wlookup (X.foldl step (seed (day0 X))) a.word = some a :=
    wlookup_of_mem_nodup hBnodup haB
  have h2 : wlookup (seed (day0 X)) a.word = none := by
    rw [seed_eq_of_nodup (day0_words_nodup X)]
    exact hnone
  rw [wlookup_foldl_step X (seed (day0 X)) a.word, h2] at hlookB
  apply List.mem_of_find?_eq_some (p := fun it => it.word == a.word)
  show wlookup (merged0 X) a.word = some a
  rw [merged0_lookup]
  exact hlookB

lemma spill_num_le {X : List Item} {a rr : Item} (ha : a ∈ spill X)
    (hr : rr ∈ day0 X) : a.num ≤ rr.num := by
  have haM : a ∈ merged0 X := spill_mem_merged0 ha
  have haS : a ∈ sortDesc (merged0 X) := ((sortDesc_perm _).mem_iff).mpr haM
  have hsplit : (sortDesc (merged0 X)).take 50 ++ (sortDesc (merged0 X)).drop 50 =
      sortDesc (merged0 X) := List.take_append_drop 50 _
  have haD : a ∈ (sortDesc (merged0 X)).drop 50 := by
    rcases List.mem_append.mp (by rw [hsplit]; exact haS) with h | h
    · exfalso
      apply spill_word_not_in_day0 ha
      rw [day0, words_ranksFrom]
      exact mem_words.mpr ⟨a, h, rfl⟩
    · exact h
  obtain ⟨t, ht, _, htn⟩ := mem_ranksFrom hr
  have hpair := sortDesc_sorted (merged0 X)
  rw [← hsplit] at hpair
  have hta := (List.pairwise_append.mp hpair).2.2 t ht a haD
  rw [htn]
  exact hta

/-! ## C-theorems for the merge -/

/-- C1: the merge is idempotent — re-merging the same new items into the
record they produced changes nothing: `merge_data X (merge_data X []) =
merge_data X []`.  The preserved record absorbs every item (its entries hold
the maximal popularity seen), the words that fell off the truncation sort
strictly after the kept block, and the rank reassignment is a fixed point. -/
theorem merge_idempotent (X : List Item) :
    merge_data X (merge_data X []) = merge_data X [] := by
  rw [show merge_data X [] = day0 X from rfl]
  rw [merge_data_eq, foldl_step_day0_eq]
  rw [sortDesc_append_sorted (day0_sorted X) (fun y hy x hx => spill_num_le hy hx)]
  by_cases h50 : (sortDesc (merged0 X)).length ≤ 50
  · have hspill : spill X = [] := by
      apply List.eq_nil_iff_forall_not_mem.mpr
      intro a ha
      apply spill_word_not_in_day0 ha
      rw [day0, words_ranksFrom, List.take_of_length_le h50]
      exact mem_words.mpr ⟨a, ((sortDesc_perm _).mem_iff).mpr (spill_mem_merged0 ha), rfl⟩
    rw [hspill]
    rw [show sortDesc ([] : List Item) = [] from rfl, List.append_nil]
    have hlen : (day0 X).length ≤ 50 := by
      have h := merge_data_length_le X []
      rwa [day0_eq] at h
    rw [List.take_of_length_le hlen]
    rw [day0]
    exact ranksFrom_ranksFrom _ 1
  · have hlen : (day0 X).length = 50 := by
      rw [day0, ranksFrom_length, List.length_take]
      omega
    rw [List.take_append_eq_append_take, List.take_of_length_le (le_of_eq hlen), hlen]
    simp only [Nat.sub_self, List.take_zero, List.append_nil]
    rw [day0]
    exact ranksFrom_ranksFrom _ 1

/-- C3: for every pair of inputs, the merged record has at most 50 entries,
pairwise-distinct words, is sorted by popularity descending, and its `realpos`
fields are exactly the contiguous sequence `1..N` in order. -/
theorem merge_data_invariants (X R : List Item) :
    (merge_data X R).length ≤ 50 ∧
    (words (merge_data X R)).Nodup ∧
    List.Pairwise numGE (merge_data X R) ∧
    (merge_data X R).map (·.realpos) = intsFrom 1 (merge_data X R).length :=
  ⟨merge_data_length_le X R, merge_data_words_nodup X R, merge_data_sorted X R,
    merge_data_ranks X R⟩

/-- C2 counterexample: the claim fails as stated — with label `L` present in
both the existing record (popularity 1) and the new items (popularity 2), the
top-50 truncation drops `L` entirely when fifty hotter fresh topics arrive, so
the merged result contains *no* entry for `L` (rather than exactly one holding
`max(1, 2)`). -/
theorem merge_popularity_claim_false :
    ((merge_data cexX cexR).filter fun f => f.word == "L") = [] ∧
    (∃ e ∈ cexR, e.word = "L") ∧ (∃ x ∈ cexX, x.word = "L") := by
  refine ⟨by decide, ⟨⟨1, "L", 1⟩, by decide, rfl⟩, ⟨⟨1, "L", 2⟩, by decide, rfl⟩⟩

/-- C2 amended: the merge never decreases a stored popularity.  For a label
carried by entry `e` of the (duplicate-free) existing record: the result holds
at most one entry for that label; any such entry's popularity is exactly
`max(p_old, p_new)` — `maxAt` folds the maximum of `e.num` and the popularity
of every new item with that label; and if no new reading strictly exceeds the
stored one, a surviving entry keeps exactly the stored popularity.  (The entry
can be dropped wholesale by the top-50 truncation, which is the sole weakening
of the original claim.) -/
theorem merge_popularity_max (X R : List Item) (e : Item)
    (hnd : (words R).Nodup) (he : e ∈ R) (_hx : ∃ x ∈ X, x.word = e.word) :
    (∀ f ∈ merge_data X R, f.word = e.word → f.num = maxAt e.word e.num X) ∧
    ((merge_data X R).filter fun f => f.word == e.word).length ≤ 1 ∧
    ((∀ x ∈ X, x.word = e.word → x.num ≤ e.num) →
      ∀ f ∈ merge_data X R, f.word = e.word → f.num = e.num) := by
  have hmax : ∀ f ∈ merge_data X R, f.word = e.word → f.num = maxAt e.word e.num X := by
    intro f hf hfw
    obtain ⟨g, hg, hgw, hgn⟩ := mem_ranksFrom hf
    have hgS : g ∈ sortDesc (X.foldl step (seed R)) := List.take_subset 50 _ hg
    have hgB : g ∈ X.foldl step (seed R) := ((sortDesc_perm _).mem_iff).mp hgS
    have hBnodup : (words (X.foldl step (seed R))).Nodup :=
      words_foldl_step_nodup X (seed_words_nodup R)
    have hlookg : wlookup (X.foldl step (seed R)) g.word = some g :=
      wlookup_of_mem_nodup hBnodup hgB
    have hlookR : wlookup (seed R) e.word = some e := by
      rw [seed_eq_of_nodup hnd]
      exact wlookup_of_mem_nodup hnd he
    obtain ⟨e', h1, _, h3⟩ := wordRun_num_max e.word X e rfl
    have hge : g.word = e.word := by rw [← hgw, hfw]
    have hlooke : wlookup (X.foldl step (seed R)) e.word = some e' := by
      rw [wlookup_foldl_step X (seed R) e.word, hlookR]
      exact h1
    have : g = e' := by
      rw [hge, hlooke] at hlookg
      exact (Option.some.inj hlookg).symm
    rw [hgn, this, h3]
  refine ⟨hmax, ?_, ?_⟩
  · have hnodup := merge_data_words_nodup X R
    generalize merge_data X R = l at hnodup ⊢
    induction l with
    | nil => simp
    | cons y ys ih =>
      have hn := List.nodup_cons.mp hnodup
      cases hy : (y.word == e.word) with
      | true =>
        have hempty : ys.filter (fun f => f.word == e.word) = [] := by
          apply List.filter_eq_nil_iff.mpr
          intro z hz
          simp only [beq_iff_eq]
          intro hze
          apply hn.1
          show y.word ∈ words ys
          rw [beq_iff_eq.mp hy, ← hze]
          exact mem_words.mpr ⟨z, hz, rfl⟩
        simp [List.filter_cons, hy, hempty]
      | false =>
        simpa [List.filter_cons, hy] using ih hn.2
  · intro hall f hf hfw
    rw [hmax f hf hfw]
    exact maxAt_eq_base X e.num hall

/-- Witness for C2 amended: label `A` stored at 500 re-read at 300 keeps 500,
and the result holds at most one `A` entry. -/
theorem merge_popularity_max_witness :
    (Item.mk 1 "A" 500).num = maxAt "A" 500 [⟨9, "A", 300⟩] ∧
    ((merge_data [⟨9, "A", 300⟩] [⟨1, "A", 500⟩, ⟨2, "B", 100⟩]).filter
      fun f => f.word == "A").length ≤ 1 := by
  have h := merge_popularity_max [⟨9, "A", 300⟩] [⟨1, "A", 500⟩, ⟨2, "B", 100⟩]
    ⟨1, "A", 500⟩ (by decide) (by decide) ⟨⟨9, "A", 300⟩, by decide, rfl⟩
  exact ⟨h.1 ⟨1, "A", 500⟩ (by decide) rfl, h.2.1⟩

end Weibo
